import Mathlib

/-!
Verification of the OpenMetadata UI repository slice against its
natural-language specification.

The development has three parts:
1. an embedding of `getTextFromHtmlString` (BlockEditorUtils.ts),
2. an embedding of the relative-percentage computations of
   `getGraphDataByEntityType` and `getFormattedActiveUsersData`
   (DataInsightUtils.tsx),
3. a model of the lineage-graph state layer (GraphStore,
   ExpansionTracker, FetchCoordinator, SelectionController,
   LineageProvider).  The `LineageProvider.tsx` implementation is not
   part of this slice (only its test file is), so part 3 is modelled
   from the specification text, as flagged in each doc comment.
-/

/-! ## Part 1: BlockEditorUtils.getTextFromHtmlString

Source: `description.replace(/<[^>]{1,1000}>/g, '').trim()` guarded by
`if (!description) return ''`.

The JS regex `<[^>]{1,1000}>` matches, at a position holding a `<`, a
greedy run of 1 to 1000 characters other than `>` followed by `>`.
Because every character inside the run is not `>`, backtracking can
never succeed at a shorter run, so a match exists at the position of a
`<` exactly when the maximal `>`-free run after it has length between
1 and 1000 and is terminated by a `>` inside the string.  Global
`replace` with the empty string scans left to right and resumes after
each removed match.  `stripTagsAux` implements exactly that scan; the
fuel argument (initialized to the list length, which one step never
outruns) only makes the recursion structural. -/

/-- Greedy run of non-`>` characters, as matched by `[^>]` in the source
regex. -/
def tagRun (rest : List Char) : List Char :=
  rest.takeWhile (fun d => d ≠ '>')

/-- One left-to-right pass of `replace(/<[^>]{1,1000}>/g, '')`, scanning
the character list and dropping each match of the source regex. -/
def stripTagsAux : Nat → List Char → List Char
  | 0, cs => cs
  | _ + 1, [] => []
  | fuel + 1, c :: rest =>
    if c = '<' ∧ 1 ≤ (tagRun rest).length ∧ (tagRun rest).length ≤ 1000 ∧
        (tagRun rest).length < rest.length then
      stripTagsAux fuel (rest.drop ((tagRun rest).length + 1))
    else
      c :: stripTagsAux fuel rest

/-- Global replacement of the source regex `<[^>]{1,1000}>` by the empty
string. -/
def stripTags (cs : List Char) : List Char :=
  stripTagsAux cs.length cs

/-- Whitespace as removed by JavaScript `String.prototype.trim`: the
ECMAScript WhiteSpace code points — tab, line feed, vertical tab, form
feed, carriage return, space, no-break space U+00A0, zero-width
no-break space U+FEFF, and the Unicode Zs space separators U+1680,
U+2000 to U+200A, U+202F, U+205F, U+3000 — together with the line
terminators U+2028 and U+2029. -/
def isJsWhitespace (c : Char) : Bool :=
  c = ' ' || c = '\t' || c = '\n' || c = '\r' || c = '\x0b' || c = '\x0c' ||
  c = '\u00A0' || c = '\uFEFF' || c = '\u1680' ||
  ('\u2000' ≤ c && c ≤ '\u200A') ||
  c = '\u202F' || c = '\u205F' || c = '\u3000' ||
  c = '\u2028' || c = '\u2029'

/-- Model of JavaScript `String.prototype.trim` on character lists. -/
def trimChars (cs : List Char) : List Char :=
  ((cs.dropWhile isJsWhitespace).reverse.dropWhile isJsWhitespace).reverse

/-- Embedding of `getTextFromHtmlString` from BlockEditorUtils.ts.
`none` models a missing (`undefined`) description; the separate empty
string branch mirrors JS falsiness of `''` in `if (!description)`. -/
def getTextFromHtmlString (description : Option String) : String :=
  match description with
  | none => ""
  | some s => if s = "" then "" else String.mk (trimChars (stripTags s.data))

/-! ## Part 2: DataInsightUtils relative-percentage computations

JavaScript numbers that may be `NaN` or `±Infinity` are modelled as
`Option ℚ` with `none` for the non-finite outcomes: `Number(undefined)`
is `NaN`, and a division whose divisor is `0` yields `NaN` or
`±Infinity`.  The source performs that division with no guard; the
embedding makes the unguarded zero-divisor case observable as `none`. -/

/-- JavaScript division on the `Option ℚ` model: `none` (non-finite)
operands propagate, and a zero divisor produces a non-finite result
because the source has no guard against it. -/
def jsDiv (a b : Option ℚ) : Option ℚ :=
  match a, b with
  | some x, some y => if y = 0 then none else some (x / y)
  | _, _ => none

/-- JavaScript subtraction on the `Option ℚ` model. -/
def jsSub (a b : Option ℚ) : Option ℚ :=
  match a, b with
  | some x, some y => some (x - y)
  | _, _ => none

/-- Record of the generated `DailyActiveUsers` type: a timestamp plus an
optional `activeUsers` count. -/
structure DailyActiveUsers where
  timestamp : Nat
  activeUsers : Option Int
deriving DecidableEq

/-- Row of `getFormattedActiveUsersData`: the user record with the
formatted timestamp and the raw `timestampValue`. -/
structure FormattedActiveUsers where
  timestampText : String
  timestampValue : Nat
  activeUsers : Option Int
deriving DecidableEq

/-- Result of `getFormattedActiveUsersData`. -/
structure ActiveUsersResult where
  data : List FormattedActiveUsers
  total : Option ℚ
  relativePercentage : Option ℚ
deriving DecidableEq

/-- Latest count of `getFormattedActiveUsersData`:
`Number(last(formattedData)?.activeUsers)`, where a missing element or
field gives `NaN`. -/
def activeUsersLatest (formatted : List FormattedActiveUsers) : Option ℚ :=
  match formatted.getLast? with
  | none => none
  | some u =>
    match u.activeUsers with
    | none => none
    | some n => some (n : ℚ)

/-- Oldest count of `getFormattedActiveUsersData`:
`Number(first(formattedData)?.activeUsers)`. -/
def activeUsersOldest (formatted : List FormattedActiveUsers) : Option ℚ :=
  match formatted.head? with
  | none => none
  | some u =>
    match u.activeUsers with
    | none => none
    | some n => some (n : ℚ)

/-- Embedding of `getFormattedActiveUsersData` from DataInsightUtils.tsx,
parameterized by the external date formatter `customFormatDateTime`.
The relative percentage is `((latestCount - oldestCount) / oldestCount)
* 100` with the division unguarded, exactly as in the source. -/
def getFormattedActiveUsersData (fmt : Nat → String)
    (activeUsers : List DailyActiveUsers) : ActiveUsersResult :=
  let formattedData := activeUsers.map fun u =>
    { timestampText := fmt u.timestamp
      timestampValue := u.timestamp
      activeUsers := u.activeUsers }
  let latestCount := activeUsersLatest formattedData
  let oldestCount := activeUsersOldest formattedData
  { data := formattedData
    total := latestCount
    relativePercentage :=
      (jsDiv (jsSub latestCount oldestCount) oldestCount).map (· * 100) }

/-- Chart type discriminant of `getGraphDataByEntityType`: the switch in
`getGraphFilteredData` only distinguishes `PageViewsByEntities` from
every other case (whose `value` stays `undefined`). -/
inductive DataInsightChartType where
  | pageViewsByEntities
  | otherChart
deriving DecidableEq

/-- Raw chart data point of `DataInsightChartResult['data']`: every field
the computation touches is optional in the generated type. -/
structure RawChartDataPoint where
  timestamp : Option Nat
  entityType : Option String
  pageViews : Option Int
deriving DecidableEq

/-- Filtered point produced for a raw entry that passes the
`data.timestamp && data.entityType` truthiness test. -/
structure FilteredPoint where
  timestampText : String
  timestampValue : Nat
  entityKey : String
  value : Option Int
deriving DecidableEq

/-- JavaScript truthiness of an optional number (`0` is falsy). -/
def truthyNat : Option Nat → Bool
  | none => false
  | some n => n ≠ 0

/-- JavaScript truthiness of an optional string (`''` is falsy). -/
def truthyStr : Option String → Bool
  | none => false
  | some s => s ≠ ""

/-- One step of the `rawData.map` loop in `getGraphFilteredData`,
threading the `entities`, `timestamps` and filtered-point accumulators
that the source mutates by `push`. -/
def graphFilterStep (fmt : Nat → String) (ct : DataInsightChartType)
    (acc : List FilteredPoint × List String × List String)
    (data : RawChartDataPoint) :
    List FilteredPoint × List String × List String :=
  if truthyNat data.timestamp && truthyStr data.entityType then
    let ts := data.timestamp.getD 0
    let et := data.entityType.getD ""
    let tsText := fmt ts
    let entities :=
      if acc.2.1.contains et then acc.2.1 else acc.2.1 ++ [et]
    let timestamps :=
      if acc.2.2.contains tsText then acc.2.2 else acc.2.2 ++ [tsText]
    let value :=
      match ct with
      | .pageViewsByEntities => data.pageViews
      | .otherChart => none
    (acc.1 ++ [{ timestampText := tsText, timestampValue := ts,
                 entityKey := et, value := value }],
     entities, timestamps)
  else
    acc

/-- Embedding of `getGraphFilteredData`: returns
`(filteredData, entities, timestamps)`. -/
def getGraphFilteredData (fmt : Nat → String)
    (rawData : List RawChartDataPoint) (ct : DataInsightChartType) :
    List FilteredPoint × List String × List String :=
  rawData.foldl (graphFilterStep fmt ct) ([], [], [])

/-- Merged graph row built by `prepareGraphData` for one timestamp: the
object spread `{...previous, ...current}` keeps the last timestamp
fields and upserts one entry per entity key. -/
structure GraphRow where
  timestampText : Option String
  timestampValue : Option Nat
  entries : List (String × Option Int)
deriving DecidableEq

/-- Upsert of one `[entityType]: value` field into the spread object:
later spreads override the value of an existing key in place. -/
def upsertEntry : List (String × Option Int) → String → Option Int →
    List (String × Option Int)
  | [], k, v => [(k, v)]
  | (k0, v0) :: rest, k, v =>
    if k0 = k then (k0, v) :: rest else (k0, v0) :: upsertEntry rest k v

/-- Embedding of the `reduce` body of `prepareGraphData` for one
timestamp. -/
def graphRowFor (filteredData : List FilteredPoint) (ts : String) :
    GraphRow :=
  filteredData.foldl
    (fun row p =>
      if p.timestampText = ts then
        { timestampText := some p.timestampText
          timestampValue := some p.timestampValue
          entries := upsertEntry row.entries p.entityKey p.value }
      else row)
    { timestampText := none, timestampValue := none, entries := [] }

/-- Embedding of `prepareGraphData`. -/
def prepareGraphData (timestamps : List String)
    (filteredData : List FilteredPoint) : List GraphRow :=
  timestamps.map (graphRowFor filteredData)

/-- Embedding of `getLatestCount`: sums `toNumber` over every non
timestamp field of the row; a missing row takes the `{}` default and
sums to `0`, while a `toNumber(undefined)` (`NaN`) poisons the sum. -/
def getLatestCount : Option GraphRow → Option ℚ
  | none => some 0
  | some r =>
    r.entries.foldl
      (fun acc e =>
        match acc, e.2 with
        | some a, some x => some (a + (x : ℚ))
        | _, _ => none)
      (some 0)

/-- Result of `getGraphDataByEntityType`. -/
structure GraphDataResult where
  data : List GraphRow
  entities : List String
  total : Option ℚ
  relativePercentage : Option ℚ
deriving DecidableEq

/-- Oldest baseline of `getGraphDataByEntityType`:
`toNumber(getLatestCount(first(graphData)))`, the divisor of the
relative-percentage division. -/
def graphOldestBaseline (fmt : Nat → String)
    (rawData : List RawChartDataPoint) (ct : DataInsightChartType) :
    Option ℚ :=
  let fd := getGraphFilteredData fmt rawData ct
  getLatestCount (prepareGraphData fd.2.2 fd.1).head?

/-- Latest value of `getGraphDataByEntityType`:
`toNumber(getLatestCount(last(graphData)))`. -/
def graphLatestValue (fmt : Nat → String)
    (rawData : List RawChartDataPoint) (ct : DataInsightChartType) :
    Option ℚ :=
  let fd := getGraphFilteredData fmt rawData ct
  getLatestCount (prepareGraphData fd.2.2 fd.1).getLast?

/-- Embedding of `getGraphDataByEntityType` from DataInsightUtils.tsx,
parameterized by the external date formatter.  The relative percentage
is `((latestPercentage - oldestPercentage) / oldestPercentage) * 100`
with the division unguarded, exactly as in the source. -/
def getGraphDataByEntityType (fmt : Nat → String)
    (rawData : List RawChartDataPoint) (ct : DataInsightChartType) :
    GraphDataResult :=
  let fd := getGraphFilteredData fmt rawData ct
  let graphData := prepareGraphData fd.2.2 fd.1
  let latestPercentage := getLatestCount graphData.getLast?
  let oldestPercentage := getLatestCount graphData.head?
  { data := graphData
    entities := fd.2.1
    total := getLatestCount graphData.getLast?
    relativePercentage :=
      (jsDiv (jsSub latestPercentage oldestPercentage)
        oldestPercentage).map (· * 100) }

/-! ## Part 3: lineage-graph state layer

`LineageProvider.tsx` is not part of this repository slice (only its
test file is), so the five components below — GraphStore,
ExpansionTracker, FetchCoordinator, SelectionController and the
provider's root bookkeeping — are modelled from sections 3 to 6 of the
specification, with the collaborator names (`getLineageDataByFQN`,
`getDataQualityLineage`) taken from the test file's mocks.  Entity ids
and fully-qualified names share one identifier namespace, as in the
test data where both are `table1`. -/

/-- Modelled from the spec: a lineage graph node, identified by
`(fullyQualifiedName, entityType)`, with display metadata merged
last-write-wins and a column set merged by union. -/
structure LineageNode where
  fqn : String
  entityType : String
  name : String
  serviceType : String
  deleted : Bool
  columns : Finset String
deriving DecidableEq

/-- Identity of a node: `(fullyQualifiedName, entityType)`. -/
def LineageNode.key (n : LineageNode) : String × String :=
  (n.fqn, n.entityType)

/-- Modelled from the spec: the tagged variant for the edge `type`
discriminant (normal lineage edge vs data-quality/observability
edge). -/
inductive EdgeKind where
  | normalEdge
  | observabilityEdge
deriving DecidableEq

/-- Modelled from the spec: a lineage edge, identified by
`(fromEntityId, toEntityId, column?)` and carrying its kind
discriminant. -/
structure LineageEdge where
  fromEntityId : String
  toEntityId : String
  column : Option String
  kind : EdgeKind
deriving DecidableEq

/-- Identity of an edge: `(fromEntityId, toEntityId, column?)`. -/
def LineageEdge.key (e : LineageEdge) : String × String × Option String :=
  (e.fromEntityId, e.toEntityId, e.column)

/-- Merge of a fetched node into the attributes already stored under its
identity: last-write-wins for the display fields, union for the column
set. -/
def mergeNodeAttrs : Option LineageNode → LineageNode → LineageNode
  | none, n => n
  | some m, n => { n with columns := m.columns ∪ n.columns }

/-- Insert of one fetched node into the node list, deduplicating by
identity: the first entry with the same identity is merged in place,
otherwise the node is appended. -/
def insertNode : List LineageNode → LineageNode → List LineageNode
  | [], n => [n]
  | m :: rest, n =>
    if m.key = n.key then mergeNodeAttrs (some m) n :: rest
    else m :: insertNode rest n

/-- Lookup of the stored node with a given identity. -/
def nodeLookup : List LineageNode → String × String → Option LineageNode
  | [], _ => none
  | m :: rest, k => if m.key = k then some m else nodeLookup rest k

/-- Whether some stored node carries the given entity identifier. -/
def hasEntity (nodes : List LineageNode) (entityId : String) : Bool :=
  nodes.any (fun m => m.fqn = entityId)

/-- Whether both endpoints of an edge are present in the node list. -/
def endpointsPresent (nodes : List LineageNode) (e : LineageEdge) : Bool :=
  hasEntity nodes e.fromEntityId && hasEntity nodes e.toEntityId

/-- Whether the list already holds an edge with the given edge's
identity. -/
def edgeIdentityIn (edges : List LineageEdge) (e : LineageEdge) : Bool :=
  edges.any (fun x => x.key = e.key)

/-- Insert of one edge, deduplicated by identity. -/
def insertEdge (edges : List LineageEdge) (e : LineageEdge) :
    List LineageEdge :=
  if edgeIdentityIn edges e then edges else edges ++ [e]

/-- Modelled from the spec: the GraphStore — the authoritative set of
materialized nodes and edges, plus the queue of edges whose endpoints
are not yet present. -/
structure GraphStore where
  nodes : List LineageNode
  edges : List LineageEdge
  pending : List LineageEdge
deriving DecidableEq

/-- Modelled from the spec: `GraphStore.reset(rootNode)` — fresh store
holding only the root node; queued edges are permanently dropped. -/
def GraphStore.reset (root : LineageNode) : GraphStore :=
  { nodes := [root], edges := [], pending := [] }

/-- Modelled from the spec: `GraphStore.mergeNodes` — merges each node
by identity, then retries every queued edge, materializing those whose
endpoints now exist. -/
def GraphStore.mergeNodes (s : GraphStore) (ns : List LineageNode) :
    GraphStore :=
  let nodes2 := ns.foldl insertNode s.nodes
  let ready := s.pending.filter (fun e => endpointsPresent nodes2 e)
  let still := s.pending.filter (fun e => !endpointsPresent nodes2 e)
  { nodes := nodes2
    edges := ready.foldl insertEdge s.edges
    pending := still }

/-- Modelled from the spec: merge of one edge — deduplicated by
identity against both materialized and queued edges, materialized when
both endpoints exist and silently queued otherwise. -/
def GraphStore.mergeEdgeOne (s : GraphStore) (e : LineageEdge) :
    GraphStore :=
  if edgeIdentityIn s.edges e || edgeIdentityIn s.pending e then s
  else if endpointsPresent s.nodes e then
    { s with edges := s.edges ++ [e] }
  else
    { s with pending := s.pending ++ [e] }

/-- Modelled from the spec: `GraphStore.mergeEdges`. -/
def GraphStore.mergeEdges (s : GraphStore) (es : List LineageEdge) :
    GraphStore :=
  es.foldl GraphStore.mergeEdgeOne s

/-- Store content as exposed by `snapshot()`: the identity-to-node map
and the materialized edge set, with no ordering guarantee (queued edges
are not part of the snapshot). -/
def GraphStore.sameContent (s t : GraphStore) : Prop :=
  (∀ k, nodeLookup s.nodes k = nodeLookup t.nodes k) ∧
  (∀ e : LineageEdge, e ∈ s.edges ↔ e ∈ t.edges)

/-- Modelled from the spec: one `mergeNodes` or `mergeEdges` call. -/
inductive MergeOp where
  | mergeNodes (ns : List LineageNode)
  | mergeEdges (es : List LineageEdge)

/-- Execution of one merge call against the store. -/
def runOp (s : GraphStore) : MergeOp → GraphStore
  | .mergeNodes ns => s.mergeNodes ns
  | .mergeEdges es => s.mergeEdges es

/-- Execution of a sequence of merge calls. -/
def runOps (s : GraphStore) (ops : List MergeOp) : GraphStore :=
  ops.foldl runOp s

/-- Node inputs delivered by one call. -/
def opNodes : MergeOp → List LineageNode
  | .mergeNodes ns => ns
  | .mergeEdges _ => []

/-- Edge inputs delivered by one call. -/
def opEdges : MergeOp → List LineageEdge
  | .mergeNodes _ => []
  | .mergeEdges es => es

/-- Total node inputs delivered by a call sequence. -/
def flatNodes (ops : List MergeOp) : List LineageNode :=
  (ops.map opNodes).flatten

/-- Total edge inputs delivered by a call sequence. -/
def flatEdges (ops : List MergeOp) : List LineageEdge :=
  (ops.map opEdges).flatten

/-- Inputs agree on identity: any two delivered records with the same
identity are the same record. -/
def nodesAgree (ns : List LineageNode) : Prop :=
  ∀ x ∈ ns, ∀ y ∈ ns, x.key = y.key → x = y

/-- Edge inputs agree on identity: any two delivered records with the
same identity are the same record. -/
def edgesAgree (es : List LineageEdge) : Prop :=
  ∀ x ∈ es, ∀ y ∈ es, x.key = y.key → x = y

/-- Modelled from the spec: per-node per-direction expansion state. -/
inductive ExpansionState where
  | notLoaded
  | loading
  | loaded
  | exhausted
deriving DecidableEq

/-- Modelled from the spec: the lineage direction of an expansion. -/
inductive LineageDirection where
  | upstream
  | downstream
deriving DecidableEq

/-- Modelled from the spec: the ExpansionTracker, keyed by node id and
direction. -/
def ExpansionTracker : Type :=
  String → LineageDirection → ExpansionState

/-- State accessor of the ExpansionTracker. -/
def ExpansionTracker.state (t : ExpansionTracker) (n : String)
    (d : LineageDirection) : ExpansionState :=
  t n d

/-- Pointwise update of the ExpansionTracker. -/
def ExpansionTracker.set (t : ExpansionTracker) (n : String)
    (d : LineageDirection) (v : ExpansionState) : ExpansionTracker :=
  fun n2 d2 => if n2 = n ∧ d2 = d then v else t n2 d2

/-- Modelled from the spec: `markLoading` — set synchronously before a
fetch is dispatched. -/
def ExpansionTracker.markLoading (t : ExpansionTracker) (n : String)
    (d : LineageDirection) : ExpansionTracker :=
  t.set n d .loading

/-- Modelled from the spec: `markLoaded` transitions to `Exhausted` when
`fetchedCount < pageSize`, else `Loaded`. -/
def ExpansionTracker.markLoaded (t : ExpansionTracker) (n : String)
    (d : LineageDirection) (fetchedCount pageSize : Nat) :
    ExpansionTracker :=
  t.set n d (if fetchedCount < pageSize then .exhausted else .loaded)

/-- Modelled from the spec: `markFailed` reverts to `NotLoaded` so a
retry is possible. -/
def ExpansionTracker.markFailed (t : ExpansionTracker) (n : String)
    (d : LineageDirection) : ExpansionTracker :=
  t.set n d .notLoaded

/-- Modelled from the spec: `loadChildren` no-ops while the pair's state
is `Loading` or `Exhausted`; otherwise it marks `Loading` and dispatches
exactly one fetch.  The boolean reports whether a network fetch was
issued. -/
def loadChildren (t : ExpansionTracker) (n : String)
    (d : LineageDirection) : ExpansionTracker × Bool :=
  match t.state n d with
  | .loading => (t, false)
  | .exhausted => (t, false)
  | _ => (t.markLoading n d, true)

/-- Number of fetches a `loadChildren` call issued. -/
def fetchCount (issued : Bool) : Nat :=
  if issued then 1 else 0

/-- Modelled from the spec: the immutable-per-session lineage
configuration. -/
structure LineageConfig where
  upstreamDepth : Nat
  downstreamDepth : Nat
  nodesPerLayer : Nat
deriving DecidableEq

/-- Modelled from the spec: an active lineage layer from the
query-string-encoded layer set. -/
inductive LineageLayer where
  | entityLineage
  | columnLevelLineage
  | dataObservability
deriving DecidableEq

/-- Modelled from the spec: one collaborator fetch issued by the
coordinator — the neighborhood fetch `getLineageDataByFQN` or the
observability fetch `getDataQualityLineage`, with the argument shapes
of the test file's mocks. -/
inductive FetchCall where
  | getLineageDataByFQN (fqn entityType : String) (config : LineageConfig)
      (queryFilter : String)
  | getDataQualityLineage (fqn : String) (config : LineageConfig)
      (queryFilter : String)
deriving DecidableEq

/-- Modelled from the spec: the fetch calls `loadRoot` issues — always
the neighborhood fetch, plus the observability fetch exactly when the
data-observability layer is active and the alert-capability flag
(`getAlertEnableStatus`) is true. -/
def loadRootCalls (fqn entityType : String) (config : LineageConfig)
    (activeLayers : List LineageLayer) (alertSupported : Bool)
    (queryFilter : String) : List FetchCall :=
  [.getLineageDataByFQN fqn entityType config queryFilter] ++
    (if activeLayers.contains .dataObservability && alertSupported then
      [.getDataQualityLineage fqn config queryFilter]
    else [])

/-- Modelled from the spec: application of the `loadRoot` responses —
reset to the root node, merge the neighborhood response's nodes and
edges, then merge the observability response's edges into the same
store. -/
def loadRootApply (root : LineageNode) (respNodes : List LineageNode)
    (respEdges obsEdges : List LineageEdge) : GraphStore :=
  runOps (GraphStore.reset root)
    [.mergeNodes respNodes, .mergeEdges respEdges, .mergeEdges obsEdges]

/-- Modelled from the spec: the selection — exactly one of nothing, a
node, an edge, or a column. -/
inductive Selection where
  | nothing
  | node (id : String)
  | edge (e : LineageEdge)
  | column (c : String)
deriving DecidableEq

/-- Modelled from the spec: the drawer kind driven by the selection;
both drawers compete for the same side-panel region. -/
inductive Drawer where
  | entityDrawer (id : String)
  | edgeDrawer (e : LineageEdge)
deriving DecidableEq

/-- Modelled from the spec: the SelectionController state — the current
selection and the drawer that should be visible as a result. -/
structure SelectionController where
  current : Selection
  drawer : Option Drawer
deriving DecidableEq

/-- Modelled from the spec: `selectNode` opens the entity drawer. -/
def SelectionController.selectNode (_s : SelectionController)
    (id : String) : SelectionController :=
  { current := .node id, drawer := some (.entityDrawer id) }

/-- Modelled from the spec: `selectEdge` opens exactly one drawer type,
the edge drawer. -/
def SelectionController.selectEdge (_s : SelectionController)
    (e : LineageEdge) : SelectionController :=
  { current := .edge e, drawer := some (.edgeDrawer e) }

/-- Modelled from the spec: `selectColumn` selects the column and closes
any open drawer (column-detail views suppress drawers). -/
def SelectionController.selectColumn (_s : SelectionController)
    (c : String) : SelectionController :=
  { current := .column c, drawer := none }

/-- Modelled from the spec: `clear`, invoked whenever GraphStore
resets. -/
def SelectionController.clear (_s : SelectionController) :
    SelectionController :=
  { current := .nothing, drawer := none }

/-- Modelled from the spec: the provider's root bookkeeping — the
current root and the store, with every in-flight `loadRoot` tagged by
the root it was issued for. -/
structure ProviderState where
  currentRoot : String
  store : GraphStore
deriving DecidableEq

/-- Modelled from the spec: starting a `loadRoot` for a new root —
re-enters `Initializing`, resets the store to the new root node, and
tags the in-flight call with that root. -/
def startLoadRoot (_ps : ProviderState) (root : LineageNode) :
    ProviderState × String :=
  ({ currentRoot := root.fqn, store := GraphStore.reset root }, root.fqn)

/-- Modelled from the spec: resolution of a tagged in-flight `loadRoot`
— the response is applied only if the tag still matches the current
root, and discarded as stale otherwise. -/
def resolveLoadRoot (ps : ProviderState) (tag : String)
    (respNodes : List LineageNode) (respEdges : List LineageEdge) :
    ProviderState :=
  if tag = ps.currentRoot then
    { ps with
      store := (ps.store.mergeNodes respNodes).mergeEdges respEdges }
  else ps

/-- Sample node used by concrete witnesses and counterexamples. -/
def sampleNode (fqnStr nameStr : String) : LineageNode :=
  { fqn := fqnStr, entityType := "table", name := nameStr,
    serviceType := "databaseService", deleted := false, columns := ∅ }

/-- Sample table-level edge used by concrete witnesses. -/
def sampleEdge (a b : String) : LineageEdge :=
  { fromEntityId := a, toEntityId := b, column := none,
    kind := .normalEdge }

/-- Sample observability edge used by concrete witnesses. -/
def sampleObsEdge (a b : String) : LineageEdge :=
  { fromEntityId := a, toEntityId := b, column := none,
    kind := .observabilityEdge }

/-- Effect, at one identity, of merging a node list: the fold of the
per-identity attribute merge over the delivered nodes. -/
def applyNodes (a : Option LineageNode) (ns : List LineageNode)
    (k : String × String) : Option LineageNode :=
  ns.foldl
    (fun acc n => if n.key = k then some (mergeNodeAttrs acc n) else acc) a

/-- Delivered nodes carrying one identity. -/
def keyMatches (ns : List LineageNode) (k : String × String) :
    List LineageNode :=
  ns.filter (fun n => n.key = k)

/-- Union of the column sets of a node list. -/
def colsUnion (ns : List LineageNode) : Finset String :=
  ns.foldr (fun n acc => n.columns ∪ acc) ∅

/-- Column set of an optional stored node. -/
def optCols : Option LineageNode → Finset String
  | none => ∅
  | some m => m.columns

/-- Whether the store already holds an edge with the given edge's
identity, materialized or queued. -/
def idInStore (s : GraphStore) (e : LineageEdge) : Bool :=
  edgeIdentityIn s.edges e || edgeIdentityIn s.pending e

/-- Invariant of a store reached from `GraphStore.reset root` after
delivering the node inputs `pn` and edge inputs `pe`: lookups are the
per-identity fold of `pn` over the root, an entity is present exactly
when it is the root or delivered, materialized edges are exactly the
delivered ones whose endpoints are present, queued edges are exactly
the delivered ones whose endpoints are absent, and queued identities
are pairwise distinct. -/
def storeInv (s : GraphStore) (pn : List LineageNode)
    (pe : List LineageEdge) (root : LineageNode) : Prop :=
  (∀ k, nodeLookup s.nodes k = applyNodes (nodeLookup [root] k) pn k) ∧
  (∀ f, hasEntity s.nodes f = true ↔ root.fqn = f ∨ ∃ n ∈ pn, n.fqn = f) ∧
  (∀ x : LineageEdge, x ∈ s.edges ↔
    x ∈ pe ∧ endpointsPresent s.nodes x = true) ∧
  (∀ x : LineageEdge, x ∈ s.pending ↔
    x ∈ pe ∧ endpointsPresent s.nodes x = false) ∧
  s.pending.Pairwise (fun a b => a.key ≠ b.key)

/-! ## Theorems -/

/-- C1: When the provider initializes with root FQN `table1`, entity
type `table`, lineage config `upstreamDepth=1, downstreamDepth=1,
nodesPerLayer=50`, and an empty active-layer set, exactly one
neighborhood fetch is issued, with arguments
`('table1','table',{downstreamDepth:1,nodesPerLayer:50,upstreamDepth:1},'')`,
and the observability fetch is never called, whatever the
alert-capability flag. -/
theorem c1_loadRoot_single_fetch :
    ∀ alertSupported : Bool,
      loadRootCalls "table1" "table" ⟨1, 1, 50⟩ [] alertSupported "" =
        [.getLineageDataByFQN "table1" "table" ⟨1, 1, 50⟩ ""] := by
  intro b
  cases b <;> rfl

/-- C3: For every selection state in which an edge drawer is open,
the column-selection operation closes that drawer: after
`selectEdge(e)` an edge drawer is open, and after the following
`selectColumn(c)` no drawer is visible. -/
theorem c3_column_click_closes_drawer :
    ∀ (s : SelectionController) (e : LineageEdge) (c : String),
      (s.selectEdge e).drawer = some (.edgeDrawer e) ∧
      ((s.selectEdge e).selectColumn c).drawer = none := by
  intro s e c
  exact ⟨rfl, rfl⟩

/-- C4: Edge selection is idempotent — for every edge and every
selection state, applying `selectEdge` twice yields the same selection
state and drawer configuration as applying it once. -/
theorem c4_selectEdge_idempotent :
    ∀ (s : SelectionController) (e : LineageEdge),
      (s.selectEdge e).selectEdge e = s.selectEdge e := by
  intro s e
  rfl

/-- C6: After `markLoaded(n, d, fetchedCount, pageSize)` the expansion
state is `Exhausted` when `fetchedCount < pageSize` and `Loaded`
otherwise, and after either terminal call (`markLoaded` or
`markFailed`) the state is never `Loading`. -/
theorem c6_markLoaded_state :
    ∀ (t : ExpansionTracker) (n : String) (d : LineageDirection)
      (fetchedCount pageSize : Nat),
      (t.markLoaded n d fetchedCount pageSize).state n d =
        (if fetchedCount < pageSize then .exhausted else .loaded) ∧
      (t.markLoaded n d fetchedCount pageSize).state n d ≠ .loading ∧
      (t.markFailed n d).state n d ≠ .loading := by
  intro t n d f p
  refine ⟨?_, ?_, ?_⟩
  · simp [ExpansionTracker.markLoaded, ExpansionTracker.set,
      ExpansionTracker.state]
  · by_cases h : f < p <;>
      simp [ExpansionTracker.markLoaded, ExpansionTracker.set,
        ExpansionTracker.state, h]
  · simp [ExpansionTracker.markFailed, ExpansionTracker.set,
      ExpansionTracker.state]

/-- C8: Stale-root responses never mutate the store — if a `loadRoot`
issued for root A resolves after a `loadRoot` for a different root B
has started, resolving A's tagged fetch leaves the GraphStore
unchanged. -/
theorem c8_stale_root_discarded :
    ∀ (ps : ProviderState) (rootB : LineageNode) (tagA : String)
      (respNodes : List LineageNode) (respEdges : List LineageEdge),
      tagA ≠ rootB.fqn →
      (resolveLoadRoot (startLoadRoot ps rootB).1 tagA respNodes
          respEdges).store = (startLoadRoot ps rootB).1.store := by
  intro ps rootB tagA ns es h
  simp [resolveLoadRoot, startLoadRoot, h]

/-- Witness for C8 at the concrete roots `a` and `b`. -/
theorem c8_witness :
    ("a" : String) ≠ "b" ∧
    (resolveLoadRoot
        (startLoadRoot ⟨"r", GraphStore.reset (sampleNode "r" "r")⟩
          (sampleNode "b" "b")).1 "a" [] []).store =
      (startLoadRoot ⟨"r", GraphStore.reset (sampleNode "r" "r")⟩
        (sampleNode "b" "b")).1.store :=
  ⟨by decide,
    c8_stale_root_discarded ⟨"r", GraphStore.reset (sampleNode "r" "r")⟩
      (sampleNode "b" "b") "a" [] [] (by decide)⟩

/-- C9: For every `(nodeId, direction)` pair at most one fetch is in
flight — two consecutive `loadChildren` calls for the same pair issue
at most one network fetch, because the second call no-ops while the
pair's state is `Loading`. -/
theorem c9_loadChildren_single_flight :
    ∀ (t : ExpansionTracker) (n : String) (d : LineageDirection),
      fetchCount (loadChildren t n d).2 +
        fetchCount (loadChildren (loadChildren t n d).1 n d).2 ≤ 1 := by
  intro t n d
  cases h : t.state n d <;>
    simp [loadChildren, ExpansionTracker.state, ExpansionTracker.markLoading,
      ExpansionTracker.set, fetchCount,
      show t n d = _ from h]

/-- C5: The relative-percentage computation divides by a possibly-zero
oldest baseline with no guard.  In `getFormattedActiveUsersData` the
percentage is `((latest - oldest) / oldest) * 100` whenever the
baseline is nonzero, a zero-valued first data point makes the divisor
zero and the unguarded division non-finite, and in
`getGraphDataByEntityType` the empty input yields the zero baseline
`toNumber(getLatestCount(undefined)) = 0` as divisor, with the same
unguarded division shape. -/
theorem c5_relative_percentage_unguarded :
    (∀ (fmt : Nat → String) (users : List DailyActiveUsers)
        (u0 u1 : DailyActiveUsers) (l o : Int),
        users.head? = some u0 → u0.activeUsers = some o →
        users.getLast? = some u1 → u1.activeUsers = some l →
        (o : ℚ) ≠ 0 →
        (getFormattedActiveUsersData fmt users).relativePercentage =
          some ((((l : ℚ) - (o : ℚ)) / (o : ℚ)) * 100)) ∧
    (∀ (fmt : Nat → String) (ts1 ts2 : Nat),
        (getFormattedActiveUsersData fmt
            [⟨ts1, some 0⟩, ⟨ts2, some 5⟩]).relativePercentage = none) ∧
    (∀ (fmt : Nat → String) (ct : DataInsightChartType),
        graphOldestBaseline fmt [] ct = some 0 ∧
        (getGraphDataByEntityType fmt [] ct).relativePercentage = none) ∧
    (∀ (fmt : Nat → String) (rawData : List RawChartDataPoint)
        (ct : DataInsightChartType),
        (getGraphDataByEntityType fmt rawData ct).relativePercentage =
          (jsDiv
            (jsSub (graphLatestValue fmt rawData ct)
              (graphOldestBaseline fmt rawData ct))
            (graphOldestBaseline fmt rawData ct)).map (· * 100)) := by
  refine ⟨?_, ?_, ?_, ?_⟩
  · intro fmt users u0 u1 l o h0 h0a h1 h1a ho
    simp [getFormattedActiveUsersData, activeUsersLatest, activeUsersOldest,
      List.head?_map, List.getLast?_map, h0, h1, h0a, h1a, jsSub, jsDiv, ho]
  · intro fmt ts1 ts2
    simp [getFormattedActiveUsersData, activeUsersLatest, activeUsersOldest,
      jsSub, jsDiv]
  · intro fmt ct
    constructor
    · rfl
    · simp [getGraphDataByEntityType, getGraphFilteredData, prepareGraphData,
        getLatestCount, jsSub, jsDiv]
  · intro fmt rawData ct
    rfl

/-- Witness for C5: concrete active-user counts 2 then 4 give the
relative percentage `((4 - 2) / 2) * 100`. -/
theorem c5_witness :
    (getFormattedActiveUsersData (fun _ => "") [⟨0, some 2⟩, ⟨1, some 4⟩]
        ).relativePercentage =
      some ((((4 : ℚ) - (2 : ℚ)) / (2 : ℚ)) * 100) :=
  c5_relative_percentage_unguarded.1 (fun _ => "")
    [⟨0, some 2⟩, ⟨1, some 4⟩] ⟨0, some 2⟩ ⟨1, some 4⟩ 4 2
    rfl rfl rfl rfl (by norm_num)

/-- Helper: `stripTagsAux` maps the empty list to itself at every
fuel. -/
theorem stripTagsAux_nil (fuel : Nat) : stripTagsAux fuel [] = [] := by
  cases fuel <;> rfl

/-- Helper: the fuel of `stripTagsAux` is irrelevant once it covers the
list length, so `stripTags` satisfies the intended recursion. -/
theorem stripTagsAux_congr :
    ∀ (fuel1 fuel2 : Nat) (cs : List Char), cs.length ≤ fuel1 →
      cs.length ≤ fuel2 → stripTagsAux fuel1 cs = stripTagsAux fuel2 cs := by
  intro fuel1
  induction fuel1 with
  | zero =>
    intro fuel2 cs h1 _
    have hnil : cs = [] := List.eq_nil_of_length_eq_zero (Nat.le_zero.mp h1)
    subst hnil
    rw [stripTagsAux_nil, stripTagsAux_nil]
  | succ f ih =>
    intro fuel2 cs h1 h2
    cases cs with
    | nil => rw [stripTagsAux_nil, stripTagsAux_nil]
    | cons c rest =>
      cases fuel2 with
      | zero => simp at h2
      | succ f2 =>
        simp only [stripTagsAux]
        by_cases hcond : c = '<' ∧ 1 ≤ (tagRun rest).length ∧
            (tagRun rest).length ≤ 1000 ∧ (tagRun rest).length < rest.length
        · rw [if_pos hcond, if_pos hcond]
          have hd : (rest.drop ((tagRun rest).length + 1)).length ≤
              rest.length := by
            rw [List.length_drop]
            omega
          have hr : rest.length ≤ f := by
            simp only [List.length_cons] at h1
            omega
          have hr2 : rest.length ≤ f2 := by
            simp only [List.length_cons] at h2
            omega
          exact ih f2 _ (le_trans hd hr) (le_trans hd hr2)
        · rw [if_neg hcond, if_neg hcond]
          have hr : rest.length ≤ f := by
            simp only [List.length_cons] at h1
            omega
          have hr2 : rest.length ≤ f2 := by
            simp only [List.length_cons] at h2
            omega
          rw [ih f2 rest hr hr2]

/-- Helper: unfolding equation of the scan on a nonempty list. -/
theorem stripTagsAux_cons (fuel : Nat) (c : Char) (rest : List Char) :
    stripTagsAux (fuel + 1) (c :: rest) =
      if c = '<' ∧ 1 ≤ (tagRun rest).length ∧ (tagRun rest).length ≤ 1000 ∧
          (tagRun rest).length < rest.length then
        stripTagsAux fuel (rest.drop ((tagRun rest).length + 1))
      else c :: stripTagsAux fuel rest := rfl

/-- Helper: unfolding equation of the greedy run on a nonempty list. -/
theorem tagRun_cons (a : Char) (l : List Char) :
    tagRun (a :: l) = if a = '>' then [] else a :: tagRun l := by
  by_cases h : a = '>'
  · simp [tagRun, h]
  · simp [tagRun, h]

/-- Helper: the greedy `[^>]` run over a `>`-free prefix followed by a
`>` is exactly that prefix. -/
theorem tagRun_append (l r : List Char) (hl : ∀ c ∈ l, c ≠ '>') :
    tagRun (l ++ '>' :: r) = l := by
  induction l with
  | nil =>
    rw [List.nil_append, tagRun_cons, if_pos rfl]
  | cons a l2 ih =>
    have ha : a ≠ '>' := hl a (by simp)
    have ih2 : tagRun (l2 ++ '>' :: r) = l2 :=
      ih (fun c hc => hl c (by simp [hc]))
    rw [List.cons_append, tagRun_cons, if_neg ha, ih2]

/-- Helper: dropping the matched tag length resumes right after the
closing `>`. -/
theorem drop_tag (l r : List Char) :
    (l ++ '>' :: r).drop (l.length + 1) = r := by
  rw [List.append_cons]
  refine List.drop_left' ?_
  simp

/-- Helper: a match of the source regex is removed and the scan resumes
after it. -/
theorem stripTags_tag_removed (inner rest : List Char)
    (h1 : 1 ≤ inner.length) (h2 : inner.length ≤ 1000)
    (h3 : ∀ c ∈ inner, c ≠ '>') :
    stripTags ('<' :: inner ++ '>' :: rest) = stripTags rest := by
  have e0 : stripTags ('<' :: inner ++ '>' :: rest) =
      stripTagsAux ((inner.length + rest.length + 1) + 1)
        ('<' :: (inner ++ '>' :: rest)) := by
    unfold stripTags
    congr 1
    simp only [List.length_cons, List.length_append]
    omega
  have hlt : (tagRun (inner ++ '>' :: rest)).length <
      (inner ++ '>' :: rest).length := by
    rw [tagRun_append inner rest h3]
    simp only [List.length_append, List.length_cons]
    omega
  have hrun : tagRun (inner ++ '>' :: rest) = inner :=
    tagRun_append inner rest h3
  rw [e0, stripTagsAux_cons, if_pos ⟨rfl, by rw [hrun]; exact h1,
    by rw [hrun]; exact h2, hlt⟩, hrun, drop_tag inner rest]
  unfold stripTags
  exact stripTagsAux_congr _ _ rest (by omega) le_rfl

/-- Helper: a list containing no `<` is returned unchanged by the
scan. -/
theorem stripTagsAux_no_tag_open (cs : List Char) :
    ∀ fuel, cs.length ≤ fuel → (∀ c ∈ cs, c ≠ '<') →
      stripTagsAux fuel cs = cs := by
  induction cs with
  | nil => intro fuel _ _; exact stripTagsAux_nil fuel
  | cons a l ih =>
    intro fuel hf hall
    cases fuel with
    | zero => simp at hf
    | succ f =>
      rw [stripTagsAux_cons]
      rw [if_neg (fun h => (hall a (by simp)) h.1)]
      rw [ih f (by simp only [List.length_cons] at hf; omega)
        (fun c hc => hall c (by simp [hc]))]

/-- Helper: an angle-bracket run longer than 1000 characters is not a
regex match and survives the scan. -/
theorem stripTags_long_run_kept (inner : List Char)
    (hlen : 1000 < inner.length)
    (hall : ∀ c ∈ inner, c ≠ '>' ∧ c ≠ '<') :
    stripTags ('<' :: inner ++ ['>']) = '<' :: inner ++ ['>'] := by
  have e0 : stripTags ('<' :: inner ++ ['>']) =
      stripTagsAux ((inner ++ ['>']).length + 1)
        ('<' :: (inner ++ ['>'])) := by
    unfold stripTags
    rfl
  have hrun : tagRun (inner ++ ['>']) = inner :=
    tagRun_append inner [] (fun c hc => (hall c hc).1)
  rw [e0, stripTagsAux_cons]
  rw [if_neg (by
    intro h
    rw [hrun] at h
    exact absurd h.2.2.1 (by omega))]
  rw [stripTagsAux_no_tag_open (inner ++ ['>']) _ le_rfl (by
    intro c hc
    rcases List.mem_append.mp hc with h | h
    · exact (hall c h).2
    · simp at h
      subst h
      decide)]
  rw [List.cons_append]

/-- C10: `getTextFromHtmlString` is total on optional input — a missing
description yields the empty string; every string is processed by
globally removing each substring consisting of `<`, then 1 to 1000
non-`>` characters, then `>`, and trimming surrounding whitespace; an
angle-bracket run longer than 1000 characters is not removed. -/
theorem c10_getTextFromHtmlString :
    getTextFromHtmlString none = "" ∧
    (∀ s : String, getTextFromHtmlString (some s) =
        String.mk (trimChars (stripTags s.data))) ∧
    (∀ inner rest : List Char, 1 ≤ inner.length → inner.length ≤ 1000 →
        (∀ c ∈ inner, c ≠ '>') →
        stripTags ('<' :: inner ++ '>' :: rest) = stripTags rest) ∧
    (∀ inner : List Char, 1000 < inner.length →
        (∀ c ∈ inner, c ≠ '>' ∧ c ≠ '<') →
        stripTags ('<' :: inner ++ ['>']) = '<' :: inner ++ ['>']) := by
  refine ⟨rfl, ?_, stripTags_tag_removed, stripTags_long_run_kept⟩
  intro s
  by_cases h : s = ""
  · subst h
    rfl
  · simp [getTextFromHtmlString, h]

/-- Witness for C10: the concrete tag body `p` is removed before the
character `x`. -/
theorem c10_witness :
    stripTags ('<' :: ['p'] ++ '>' :: ['x']) = stripTags ['x'] :=
  c10_getTextFromHtmlString.2.2.1 ['p'] ['x'] (by decide) (by decide)
    (by decide)

/-- Helper: the merged record keeps the incoming node's identity. -/
theorem mergeNodeAttrs_key (a : Option LineageNode) (n : LineageNode) :
    (mergeNodeAttrs a n).key = n.key := by
  cases a <;> rfl

/-- Helper: the merged record keeps the incoming node's entity id. -/
theorem mergeNodeAttrs_fqn (a : Option LineageNode) (n : LineageNode) :
    (mergeNodeAttrs a n).fqn = n.fqn := by
  cases a <;> rfl

/-- Helper: lookup after one node insert. -/
theorem nodeLookup_insertNode (L : List LineageNode) (n : LineageNode)
    (k : String × String) :
    nodeLookup (insertNode L n) k =
      if n.key = k then some (mergeNodeAttrs (nodeLookup L n.key) n)
      else nodeLookup L k := by
  induction L with
  | nil =>
    simp only [insertNode, nodeLookup]
    by_cases h : n.key = k
    · rw [if_pos h, if_pos h]
      rfl
    · rw [if_neg h, if_neg h]
  | cons m rest ih =>
    by_cases hm : m.key = n.key
    · rw [show insertNode (m :: rest) n =
        mergeNodeAttrs (some m) n :: rest from by rw [insertNode, if_pos hm]]
      by_cases hk : n.key = k
      · rw [show nodeLookup (mergeNodeAttrs (some m) n :: rest) k =
          some (mergeNodeAttrs (some m) n) from by
            rw [nodeLookup, if_pos ((mergeNodeAttrs_key (some m) n).trans hk)]]
        rw [if_pos hk]
        rw [show nodeLookup (m :: rest) n.key = some m from by
          rw [nodeLookup, if_pos hm]]
      · rw [show nodeLookup (mergeNodeAttrs (some m) n :: rest) k =
          nodeLookup rest k from by
            rw [nodeLookup,
              if_neg (fun hc => hk ((mergeNodeAttrs_key (some m) n).symm.trans hc))]]
        rw [if_neg hk]
        rw [show nodeLookup (m :: rest) k = nodeLookup rest k from by
          rw [nodeLookup, if_neg (fun hc => hk ((hm.symm.trans hc) : n.key = k))]]
    · rw [show insertNode (m :: rest) n = m :: insertNode rest n from by
        rw [insertNode, if_neg hm]]
      by_cases hk : n.key = k
      · have hmk : ¬ m.key = k := fun hc => hm (hc.trans hk.symm)
        rw [show nodeLookup (m :: insertNode rest n) k =
          nodeLookup (insertNode rest n) k from by
            rw [nodeLookup, if_neg hmk]]
        rw [ih, if_pos hk, if_pos hk]
        rw [show nodeLookup (m :: rest) n.key = nodeLookup rest n.key from by
          rw [nodeLookup, if_neg (fun hc => hm hc)]]
      · rw [if_neg hk]
        by_cases hmk : m.key = k
        · rw [show nodeLookup (m :: insertNode rest n) k = some m from by
            rw [nodeLookup, if_pos hmk]]
          rw [show nodeLookup (m :: rest) k = some m from by
            rw [nodeLookup, if_pos hmk]]
        · rw [show nodeLookup (m :: insertNode rest n) k =
            nodeLookup (insertNode rest n) k from by
              rw [nodeLookup, if_neg hmk]]
          rw [show nodeLookup (m :: rest) k = nodeLookup rest k from by
            rw [nodeLookup, if_neg hmk]]
          rw [ih, if_neg hk]

/-- Helper: lookup after a node-list merge is the per-identity fold of
the delivered nodes. -/
theorem nodeLookup_foldl_insertNode (ns : List LineageNode) :
    ∀ (L : List LineageNode) (k : String × String),
      nodeLookup (ns.foldl insertNode L) k =
        applyNodes (nodeLookup L k) ns k := by
  induction ns with
  | nil => intro L k; rfl
  | cons n ns ih =>
    intro L k
    have step : nodeLookup (insertNode L n) k =
        if n.key = k then some (mergeNodeAttrs (nodeLookup L k) n)
        else nodeLookup L k := by
      rw [nodeLookup_insertNode]
      by_cases h : n.key = k
      · rw [if_pos h, if_pos h, h]
      · rw [if_neg h, if_neg h]
    show nodeLookup (ns.foldl insertNode (insertNode L n)) k = _
    rw [ih (insertNode L n) k, step]
    rfl

/-- Helper: entity presence after one node insert. -/
theorem hasEntity_insertNode (L : List LineageNode) (n : LineageNode)
    (f : String) :
    hasEntity (insertNode L n) f = true ↔
      hasEntity L f = true ∨ n.fqn = f := by
  induction L with
  | nil => simp [insertNode, hasEntity]
  | cons m rest ih =>
    by_cases hm : m.key = n.key
    · have hfqn : m.fqn = n.fqn := congrArg Prod.fst hm
      rw [show insertNode (m :: rest) n =
        mergeNodeAttrs (some m) n :: rest from by rw [insertNode, if_pos hm]]
      simp only [hasEntity, List.any_cons, Bool.or_eq_true,
        decide_eq_true_eq] at *
      rw [mergeNodeAttrs_fqn, hfqn]
      tauto
    · rw [show insertNode (m :: rest) n = m :: insertNode rest n from by
        rw [insertNode, if_neg hm]]
      simp only [hasEntity, List.any_cons, Bool.or_eq_true,
        decide_eq_true_eq] at *
      tauto

/-- Helper: entity presence after a node-list merge. -/
theorem hasEntity_foldl_insertNode (ns : List LineageNode) :
    ∀ (L : List LineageNode) (f : String),
      hasEntity (ns.foldl insertNode L) f = true ↔
        hasEntity L f = true ∨ ∃ n ∈ ns, n.fqn = f := by
  induction ns with
  | nil => intro L f; simp
  | cons n ns ih =>
    intro L f
    show hasEntity (ns.foldl insertNode (insertNode L n)) f = true ↔ _
    rw [ih, hasEntity_insertNode]
    simp only [List.mem_cons]
    constructor
    · rintro ((h | h) | ⟨x, hx, hfx⟩)
      · exact Or.inl h
      · exact Or.inr ⟨n, Or.inl rfl, h⟩
      · exact Or.inr ⟨x, Or.inr hx, hfx⟩
    · rintro (h | ⟨x, (rfl | hx), hfx⟩)
      · exact Or.inl (Or.inl h)
      · exact Or.inl (Or.inr hfx)
      · exact Or.inr ⟨x, hx, hfx⟩

/-- Helper: the per-identity fold over a concatenation. -/
theorem applyNodes_append (a : Option LineageNode)
    (ns1 ns2 : List LineageNode) (k : String × String) :
    applyNodes a (ns1 ++ ns2) k =
      applyNodes (applyNodes a ns1 k) ns2 k := by
  simp [applyNodes, List.foldl_append]

/-- Helper: every delivered node at an identity carries that
identity. -/
theorem keyMatches_key (ns : List LineageNode) (k : String × String) :
    ∀ m ∈ keyMatches ns k, m.key = k := by
  intro m hm
  have := List.of_mem_filter hm
  simpa using this

/-- Helper: the per-identity fold skips when no delivered node matches
the identity. -/
theorem applyNodes_matches_nil (ns : List LineageNode)
    (k : String × String) :
    ∀ (a : Option LineageNode), keyMatches ns k = [] →
      applyNodes a ns k = a := by
  induction ns with
  | nil => intro a _; rfl
  | cons n ns ih =>
    intro a h
    by_cases hk : n.key = k
    · exfalso
      have : n ∈ keyMatches (n :: ns) k := by
        simp [keyMatches, hk]
      rw [h] at this
      simp at this
    · have h2 : keyMatches ns k = [] := by
        rw [show keyMatches (n :: ns) k = keyMatches ns k from by
          simp [keyMatches, hk]] at h
        exact h
      have hstep : applyNodes a (n :: ns) k = applyNodes a ns k := by
        simp [applyNodes, hk]
      rw [hstep]
      exact ih a h2

/-- Helper: the per-identity fold keeps the display fields of the last
delivered match and unions every delivered column set. -/
theorem applyNodes_matches_last (ns : List LineageNode)
    (k : String × String) :
    ∀ (a : Option LineageNode) (m : LineageNode),
      (keyMatches ns k).getLast? = some m →
      applyNodes a ns k =
        some { m with
          columns := optCols a ∪ colsUnion (keyMatches ns k) } := by
  induction ns with
  | nil =>
    intro a m h
    simp [keyMatches] at h
  | cons n ns ih =>
    intro a m h
    by_cases hk : n.key = k
    · have hfilter : keyMatches (n :: ns) k = n :: keyMatches ns k := by
        simp [keyMatches, hk]
      rw [hfilter] at h ⊢
      have hstep : applyNodes a (n :: ns) k =
          applyNodes (some (mergeNodeAttrs a n)) ns k := by
        simp [applyNodes, hk]
      rw [hstep]
      have hoc : optCols (some (mergeNodeAttrs a n)) =
          optCols a ∪ n.columns := by
        cases a <;> simp [mergeNodeAttrs, optCols]
      rcases hrest : (keyMatches ns k).getLast? with _ | m2
      · have hnil : keyMatches ns k = [] := List.getLast?_eq_none_iff.mp hrest
        rw [hnil] at h
        have hm : n = m := by simpa using h
        rw [applyNodes_matches_nil ns k _ hnil, hnil]
        subst hm
        cases a <;> simp [mergeNodeAttrs, optCols, colsUnion]
      · have hne : keyMatches ns k ≠ [] := by
          intro hc
          rw [hc] at hrest
          simp at hrest
        have hlast : (n :: keyMatches ns k).getLast? =
            (keyMatches ns k).getLast? := by
          cases hcase : keyMatches ns k with
          | nil => exact absurd hcase hne
          | cons b l => exact List.getLast?_cons_cons
        rw [hlast, hrest] at h
        have hm : m2 = m := by injection h
        subst hm
        rw [ih (some (mergeNodeAttrs a n)) m2 hrest, hoc]
        rw [show colsUnion (n :: keyMatches ns k) =
          n.columns ∪ colsUnion (keyMatches ns k) from rfl]
        rw [← Finset.union_assoc]
    · have hfilter : keyMatches (n :: ns) k = keyMatches ns k := by
        simp [keyMatches, hk]
      rw [hfilter] at h ⊢
      have hstep : applyNodes a (n :: ns) k = applyNodes a ns k := by
        simp [applyNodes, hk]
      rw [hstep]
      exact ih a m h

/-- Helper: the per-identity fold is idempotent — merging the same node
list again leaves the stored attributes unchanged. -/
theorem applyNodes_idem (a : Option LineageNode) (ns : List LineageNode)
    (k : String × String) :
    applyNodes (applyNodes a ns k) ns k = applyNodes a ns k := by
  rcases h : (keyMatches ns k).getLast? with _ | m
  · have hnil : keyMatches ns k = [] := List.getLast?_eq_none_iff.mp h
    rw [applyNodes_matches_nil ns k _ hnil, applyNodes_matches_nil ns k _ hnil]
  · rw [applyNodes_matches_last ns k a m h]
    rw [applyNodes_matches_last ns k _ m h]
    rw [show optCols (some { m with
      columns := optCols a ∪ colsUnion (keyMatches ns k) }) =
        optCols a ∪ colsUnion (keyMatches ns k) from rfl]
    rw [Finset.union_assoc, Finset.union_self]

/-- Helper: the last element of a constant list. -/
theorem getLast?_all_eq {α : Type} (c : α) :
    ∀ (l : List α), (∀ y ∈ l, y = c) → l ≠ [] → l.getLast? = some c := by
  intro l
  induction l with
  | nil => intro _ h; exact absurd rfl h
  | cons a l ih =>
    intro hall _
    cases hl : l with
    | nil =>
      have : a = c := hall a (by simp)
      subst this
      rfl
    | cons b l2 =>
      rw [← hl]
      have hlast : (a :: l).getLast? = l.getLast? := by
        rw [hl]
        exact List.getLast?_cons_cons
      rw [hlast]
      exact ih (fun y hy => hall y (by simp [hy])) (by rw [hl]; simp)

/-- Helper: the column union of a constant nonempty node list. -/
theorem colsUnion_all_eq (c : LineageNode) :
    ∀ (l : List LineageNode), (∀ y ∈ l, y = c) → l ≠ [] →
      colsUnion l = c.columns := by
  intro l
  induction l with
  | nil => intro _ h; exact absurd rfl h
  | cons a l ih =>
    intro hall _
    have ha : a = c := hall a (by simp)
    cases hl : l with
    | nil =>
      subst ha
      simp [colsUnion]
    | cons b l2 =>
      have h2 : colsUnion l = c.columns := by
        refine ih (fun y hy => hall y (by simp [hy])) ?_
        rw [hl]
        simp
      rw [hl] at h2
      rw [show colsUnion (a :: b :: l2) = a.columns ∪ colsUnion (b :: l2)
        from rfl]
      rw [ha, h2, Finset.union_self]

/-- Helper: under identity agreement the per-identity fold is invariant
under permutation of the delivered node multiset. -/
theorem applyNodes_perm (ns1 ns2 : List LineageNode)
    (hperm : ns1.Perm ns2) (hagree : nodesAgree ns1)
    (a : Option LineageNode) (k : String × String) :
    applyNodes a ns1 k = applyNodes a ns2 k := by
  have hpf : (keyMatches ns1 k).Perm (keyMatches ns2 k) :=
    hperm.filter _
  rcases hcase : keyMatches ns1 k with _ | ⟨c, l⟩
  · have h2 : keyMatches ns2 k = [] := by
      rw [hcase] at hpf
      exact (hpf.symm).eq_nil
    rw [applyNodes_matches_nil ns1 k a hcase,
      applyNodes_matches_nil ns2 k a h2]
  · have hcmem : c ∈ keyMatches ns1 k := by rw [hcase]; simp
    have hallc : ∀ y ∈ keyMatches ns1 k, y = c := by
      intro y hy
      have hyk : y.key = k := keyMatches_key ns1 k y hy
      have hck : c.key = k := keyMatches_key ns1 k c hcmem
      exact hagree y (List.mem_of_mem_filter hy) c
        (List.mem_of_mem_filter hcmem) (hyk.trans hck.symm)
    have hallc2 : ∀ y ∈ keyMatches ns2 k, y = c := fun y hy =>
      hallc y (hpf.mem_iff.mpr hy)
    have hne1 : keyMatches ns1 k ≠ [] := by rw [hcase]; simp
    have hne2 : keyMatches ns2 k ≠ [] := by
      intro hc
      rw [hc] at hpf
      exact hne1 hpf.eq_nil
    have hl1 := getLast?_all_eq c (keyMatches ns1 k) hallc hne1
    have hl2 := getLast?_all_eq c (keyMatches ns2 k) hallc2 hne2
    rw [applyNodes_matches_last ns1 k a c hl1,
      applyNodes_matches_last ns2 k a c hl2,
      colsUnion_all_eq c (keyMatches ns1 k) hallc hne1,
      colsUnion_all_eq c (keyMatches ns2 k) hallc2 hne2]

/-- Helper: identity containment as an existential. -/
theorem edgeIdentityIn_iff (L : List LineageEdge) (e : LineageEdge) :
    edgeIdentityIn L e = true ↔ ∃ x ∈ L, x.key = e.key := by
  simp [edgeIdentityIn]

/-- Helper: identity containment over an append. -/
theorem edgeIdentityIn_append (L1 L2 : List LineageEdge)
    (e : LineageEdge) :
    edgeIdentityIn (L1 ++ L2) e =
      (edgeIdentityIn L1 e || edgeIdentityIn L2 e) := by
  simp [edgeIdentityIn, List.any_append]

/-- Helper: edges sharing an identity share endpoints, hence endpoint
presence. -/
theorem endpointsPresent_eq_of_key (L : List LineageNode)
    (x e : LineageEdge) (h : x.key = e.key) :
    endpointsPresent L x = endpointsPresent L e := by
  have hf : x.fromEntityId = e.fromEntityId :=
    congrArg (fun p : String × String × Option String => p.1) h
  have ht : x.toEntityId = e.toEntityId :=
    congrArg (fun p : String × String × Option String => p.2.1) h
  rw [endpointsPresent, endpointsPresent, hf, ht]

/-- Helper: inserting identity-fresh pairwise-distinct edges appends
them unchanged. -/
theorem foldl_insertEdge_fresh :
    ∀ (es L : List LineageEdge),
      es.Pairwise (fun a b => a.key ≠ b.key) →
      (∀ e ∈ es, edgeIdentityIn L e = false) →
      es.foldl insertEdge L = L ++ es := by
  intro es
  induction es with
  | nil => intro L _ _; simp
  | cons e es ih =>
    intro L hp hfresh
    obtain ⟨hhead, htail⟩ := List.pairwise_cons.mp hp
    have he : edgeIdentityIn L e = false := hfresh e (by simp)
    have hstep : insertEdge L e = L ++ [e] := by
      rw [insertEdge, if_neg (by simp [he])]
    have hfresh2 : ∀ x ∈ es, edgeIdentityIn (L ++ [e]) x = false := by
      intro x hx
      rw [edgeIdentityIn_append]
      have h1 : edgeIdentityIn L x = false := hfresh x (by simp [hx])
      have h2 : edgeIdentityIn [e] x = false := by
        simp only [edgeIdentityIn, List.any_cons, List.any_nil,
          Bool.or_false, decide_eq_false_iff_not]
        exact fun hc => (hhead x hx) hc
      rw [h1, h2]
      rfl
    show es.foldl insertEdge (insertEdge L e) = L ++ e :: es
    rw [hstep, ih (L ++ [e]) htail hfresh2]
    simp

/-- Helper: the invariant holds at the freshly reset store. -/
theorem storeInv_reset (root : LineageNode) :
    storeInv (GraphStore.reset root) [] [] root := by
  refine ⟨fun k => rfl, ?_, ?_, ?_, ?_⟩
  · intro f
    simp [GraphStore.reset, hasEntity]
  · intro x
    simp [GraphStore.reset]
  · intro x
    simp [GraphStore.reset]
  · simp [GraphStore.reset]

/-- Helper: the invariant is preserved by merging one edge. -/
theorem storeInv_mergeEdgeOne (s : GraphStore) (pn : List LineageNode)
    (pe : List LineageEdge) (root : LineageNode) (e : LineageEdge)
    (hinv : storeInv s pn pe root)
    (hagree : edgesAgree (pe ++ [e])) :
    storeInv (s.mergeEdgeOne e) pn (pe ++ [e]) root := by
  obtain ⟨hA, hB, hC, hD, hE⟩ := hinv
  by_cases hskip :
      (edgeIdentityIn s.edges e || edgeIdentityIn s.pending e) = true
  · have hs : s.mergeEdgeOne e = s := by
      rw [GraphStore.mergeEdgeOne, if_pos hskip]
    have hepe : e ∈ pe := by
      rcases Bool.or_eq_true_iff.mp hskip with h | h
      · obtain ⟨y, hy, hyk⟩ := (edgeIdentityIn_iff _ _).mp h
        have hy2 := (hC y).mp hy
        have hye : y = e := hagree y (List.mem_append.mpr (Or.inl hy2.1)) e
          (List.mem_append.mpr (Or.inr (by simp))) hyk
        exact hye ▸ hy2.1
      · obtain ⟨y, hy, hyk⟩ := (edgeIdentityIn_iff _ _).mp h
        have hy2 := (hD y).mp hy
        have hye : y = e := hagree y (List.mem_append.mpr (Or.inl hy2.1)) e
          (List.mem_append.mpr (Or.inr (by simp))) hyk
        exact hye ▸ hy2.1
    rw [hs]
    refine ⟨hA, hB, ?_, ?_, hE⟩
    · intro x
      rw [hC x]
      constructor
      · rintro ⟨h1, h2⟩
        exact ⟨List.mem_append.mpr (Or.inl h1), h2⟩
      · rintro ⟨h1, h2⟩
        rcases List.mem_append.mp h1 with h1 | h1
        · exact ⟨h1, h2⟩
        · simp at h1
          subst h1
          exact ⟨hepe, h2⟩
    · intro x
      rw [hD x]
      constructor
      · rintro ⟨h1, h2⟩
        exact ⟨List.mem_append.mpr (Or.inl h1), h2⟩
      · rintro ⟨h1, h2⟩
        rcases List.mem_append.mp h1 with h1 | h1
        · exact ⟨h1, h2⟩
        · simp at h1
          subst h1
          exact ⟨hepe, h2⟩
  · have hskip2 :
        (edgeIdentityIn s.edges e || edgeIdentityIn s.pending e) = false :=
      Bool.eq_false_iff.mpr hskip
    by_cases hpres : endpointsPresent s.nodes e = true
    · have hs : s.mergeEdgeOne e = { s with edges := s.edges ++ [e] } := by
        rw [GraphStore.mergeEdgeOne, if_neg hskip, if_pos hpres]
      rw [hs]
      refine ⟨hA, hB, ?_, ?_, hE⟩
      · intro x
        show x ∈ s.edges ++ [e] ↔
          x ∈ pe ++ [e] ∧ endpointsPresent s.nodes x = true
        constructor
        · intro hx
          rcases List.mem_append.mp hx with hx | hx
          · obtain ⟨h1, h2⟩ := (hC x).mp hx
            exact ⟨List.mem_append.mpr (Or.inl h1), h2⟩
          · simp at hx
            subst hx
            exact ⟨List.mem_append.mpr (Or.inr (by simp)), hpres⟩
        · rintro ⟨h1, h2⟩
          rcases List.mem_append.mp h1 with h1 | h1
          · exact List.mem_append.mpr (Or.inl ((hC x).mpr ⟨h1, h2⟩))
          · simp at h1
            subst h1
            simp
      · intro x
        show x ∈ s.pending ↔
          x ∈ pe ++ [e] ∧ endpointsPresent s.nodes x = false
        rw [hD x]
        constructor
        · rintro ⟨h1, h2⟩
          exact ⟨List.mem_append.mpr (Or.inl h1), h2⟩
        · rintro ⟨h1, h2⟩
          rcases List.mem_append.mp h1 with h1 | h1
          · exact ⟨h1, h2⟩
          · simp at h1
            subst h1
            rw [hpres] at h2
            cases h2
    · have hpres2 : endpointsPresent s.nodes e = false := by
        cases hcc : endpointsPresent s.nodes e
        · rfl
        · exact absurd hcc hpres
      have hs : s.mergeEdgeOne e = { s with pending := s.pending ++ [e] } := by
        rw [GraphStore.mergeEdgeOne, if_neg hskip, if_neg hpres]
      rw [hs]
      refine ⟨hA, hB, ?_, ?_, ?_⟩
      · intro x
        show x ∈ s.edges ↔
          x ∈ pe ++ [e] ∧ endpointsPresent s.nodes x = true
        rw [hC x]
        constructor
        · rintro ⟨h1, h2⟩
          exact ⟨List.mem_append.mpr (Or.inl h1), h2⟩
        · rintro ⟨h1, h2⟩
          rcases List.mem_append.mp h1 with h1 | h1
          · exact ⟨h1, h2⟩
          · simp at h1
            subst h1
            rw [hpres2] at h2
            cases h2
      · intro x
        show x ∈ s.pending ++ [e] ↔
          x ∈ pe ++ [e] ∧ endpointsPresent s.nodes x = false
        constructor
        · intro hx
          rcases List.mem_append.mp hx with hx | hx
          · obtain ⟨h1, h2⟩ := (hD x).mp hx
            exact ⟨List.mem_append.mpr (Or.inl h1), h2⟩
          · simp at hx
            subst hx
            exact ⟨List.mem_append.mpr (Or.inr (by simp)), hpres2⟩
        · rintro ⟨h1, h2⟩
          rcases List.mem_append.mp h1 with h1 | h1
          · exact List.mem_append.mpr (Or.inl ((hD x).mpr ⟨h1, h2⟩))
          · simp at h1
            subst h1
            simp
      · show List.Pairwise (fun a b => a.key ≠ b.key) (s.pending ++ [e])
        rw [List.pairwise_append]
        refine ⟨hE, by simp, ?_⟩
        intro a ha b hb
        simp at hb
        intro hc
        have hno : edgeIdentityIn s.pending e = false :=
          (Bool.or_eq_false_iff.mp hskip2).2
        have hyes : edgeIdentityIn s.pending e = true :=
          (edgeIdentityIn_iff _ _).mpr ⟨a, ha, hb ▸ hc⟩
        rw [hno] at hyes
        cases hyes

/-- Helper: the invariant is preserved by merging a node list, which
also retries every queued edge. -/
theorem storeInv_mergeNodes (s : GraphStore) (pn : List LineageNode)
    (pe : List LineageEdge) (root : LineageNode) (ns : List LineageNode)
    (hinv : storeInv s pn pe root) :
    storeInv (s.mergeNodes ns) (pn ++ ns) pe root := by
  obtain ⟨hA, hB, hC, hD, hE⟩ := hinv
  have hN : (s.mergeNodes ns).nodes = ns.foldl insertNode s.nodes := rfl
  have hEg : (s.mergeNodes ns).edges =
      (s.pending.filter
        (fun e => endpointsPresent (ns.foldl insertNode s.nodes) e)).foldl
        insertEdge s.edges := rfl
  have hP : (s.mergeNodes ns).pending =
      s.pending.filter
        (fun e => !endpointsPresent (ns.foldl insertNode s.nodes) e) := rfl
  have hmono : ∀ x : LineageEdge, endpointsPresent s.nodes x = true →
      endpointsPresent (ns.foldl insertNode s.nodes) x = true := by
    intro x hx
    rw [endpointsPresent, Bool.and_eq_true] at hx ⊢
    obtain ⟨h1, h2⟩ := hx
    constructor
    · rw [hasEntity_foldl_insertNode]
      rw [show (hasEntity s.nodes x.fromEntityId = true) ↔ True from
        iff_true_intro h1] at *
      exact Or.inl trivial
    · rw [hasEntity_foldl_insertNode]
      exact Or.inl h2
  have hfresh : ∀ x ∈ s.pending.filter
      (fun e => endpointsPresent (ns.foldl insertNode s.nodes) e),
      edgeIdentityIn s.edges x = false := by
    intro x hx
    obtain ⟨hxp, _⟩ := List.mem_filter.mp hx
    obtain ⟨_, hxa⟩ := (hD x).mp hxp
    rw [Bool.eq_false_iff]
    intro htrue
    obtain ⟨y, hy, hyk⟩ := (edgeIdentityIn_iff _ _).mp htrue
    have hyp := ((hC y).mp hy).2
    rw [endpointsPresent_eq_of_key s.nodes y x hyk, hxa] at hyp
    cases hyp
  have hsplit : (s.pending.filter
      (fun e => endpointsPresent (ns.foldl insertNode s.nodes) e)).foldl
      insertEdge s.edges =
        s.edges ++ s.pending.filter
          (fun e => endpointsPresent (ns.foldl insertNode s.nodes) e) :=
    foldl_insertEdge_fresh _ _ (hE.filter _) hfresh
  refine ⟨?_, ?_, ?_, ?_, ?_⟩
  · intro k
    rw [hN, nodeLookup_foldl_insertNode, hA k, ← applyNodes_append]
  · intro f
    rw [hN, hasEntity_foldl_insertNode, hB f]
    constructor
    · rintro ((h | ⟨x, hx, hfx⟩) | ⟨x, hx, hfx⟩)
      · exact Or.inl h
      · exact Or.inr ⟨x, List.mem_append.mpr (Or.inl hx), hfx⟩
      · exact Or.inr ⟨x, List.mem_append.mpr (Or.inr hx), hfx⟩
    · rintro (h | ⟨x, hx, hfx⟩)
      · exact Or.inl (Or.inl h)
      · rcases List.mem_append.mp hx with hx | hx
        · exact Or.inl (Or.inr ⟨x, hx, hfx⟩)
        · exact Or.inr ⟨x, hx, hfx⟩
  · intro x
    rw [hEg, hN, hsplit]
    constructor
    · intro hx
      rcases List.mem_append.mp hx with hx | hx
      · obtain ⟨h1, h2⟩ := (hC x).mp hx
        exact ⟨h1, hmono x h2⟩
      · obtain ⟨hxp, hb⟩ := List.mem_filter.mp hx
        exact ⟨((hD x).mp hxp).1, hb⟩
    · rintro ⟨hpe, hp2⟩
      by_cases hx : endpointsPresent s.nodes x = true
      · exact List.mem_append.mpr (Or.inl ((hC x).mpr ⟨hpe, hx⟩))
      · have hx2 : endpointsPresent s.nodes x = false :=
          Bool.eq_false_iff.mpr hx
        refine List.mem_append.mpr (Or.inr ?_)
        exact List.mem_filter.mpr ⟨(hD x).mpr ⟨hpe, hx2⟩, hp2⟩
  · intro x
    rw [hP, hN]
    constructor
    · intro hx
      obtain ⟨hxp, hnb⟩ := List.mem_filter.mp hx
      refine ⟨((hD x).mp hxp).1, ?_⟩
      rwa [Bool.not_eq_true'] at hnb
    · rintro ⟨hpe, hfalse⟩
      have hs : endpointsPresent s.nodes x = false := by
        cases hcc : endpointsPresent s.nodes x
        · rfl
        · have := hmono x hcc
          rw [hfalse] at this
          cases this
      refine List.mem_filter.mpr ⟨(hD x).mpr ⟨hpe, hs⟩, ?_⟩
      rw [Bool.not_eq_true', hfalse]
  · rw [hP]
    exact hE.filter _

/-- Helper: identity agreement restricts to any subset of the delivered
edges. -/
theorem edgesAgree_subset (l l2 : List LineageEdge)
    (h : edgesAgree l) (hsub : ∀ x ∈ l2, x ∈ l) : edgesAgree l2 :=
  fun x hx y hy hk => h x (hsub x hx) y (hsub y hy) hk

/-- Helper: identity agreement on nodes restricts to any subset. -/
theorem nodesAgree_subset (l l2 : List LineageNode)
    (h : nodesAgree l) (hsub : ∀ x ∈ l2, x ∈ l) : nodesAgree l2 :=
  fun x hx y hy hk => h x (hsub x hx) y (hsub y hy) hk

/-- Helper: the invariant is preserved by a `mergeEdges` call. -/
theorem storeInv_mergeEdges :
    ∀ (es : List LineageEdge) (s : GraphStore) (pn : List LineageNode)
      (pe : List LineageEdge) (root : LineageNode),
      storeInv s pn pe root → edgesAgree (pe ++ es) →
      storeInv (s.mergeEdges es) pn (pe ++ es) root := by
  intro es
  induction es with
  | nil =>
    intro s pn pe root h _
    simpa using h
  | cons e es ih =>
    intro s pn pe root hinv hagree
    have h1 : storeInv (s.mergeEdgeOne e) pn (pe ++ [e]) root :=
      storeInv_mergeEdgeOne s pn pe root e hinv
        (edgesAgree_subset _ _ hagree (by
          intro x hx
          rcases List.mem_append.mp hx with hx | hx
          · exact List.mem_append.mpr (Or.inl hx)
          · simp at hx
            subst hx
            exact List.mem_append.mpr (Or.inr (by simp))))
    have h2 := ih (s.mergeEdgeOne e) pn (pe ++ [e]) root h1
      (edgesAgree_subset _ _ hagree (by
        intro x hx
        rcases List.mem_append.mp hx with hx | hx
        · rcases List.mem_append.mp hx with hx | hx
          · exact List.mem_append.mpr (Or.inl hx)
          · simp at hx
            subst hx
            exact List.mem_append.mpr (Or.inr (by simp))
        · exact List.mem_append.mpr (Or.inr (by simp [hx]))))
    have heq : (pe ++ [e]) ++ es = pe ++ e :: es := by simp
    rw [heq] at h2
    exact h2

/-- Helper: the invariant is established along any call sequence run
from a reset store. -/
theorem storeInv_runOps :
    ∀ (ops : List MergeOp) (s : GraphStore) (pn : List LineageNode)
      (pe : List LineageEdge) (root : LineageNode),
      storeInv s pn pe root →
      edgesAgree (pe ++ flatEdges ops) →
      storeInv (runOps s ops) (pn ++ flatNodes ops)
        (pe ++ flatEdges ops) root := by
  intro ops
  induction ops with
  | nil =>
    intro s pn pe root hinv _
    simpa [runOps, flatNodes, flatEdges] using hinv
  | cons op ops ih =>
    intro s pn pe root hinv hagree
    cases op with
    | mergeNodes ns =>
      have hfe : flatEdges (MergeOp.mergeNodes ns :: ops) = flatEdges ops := by
        simp [flatEdges, opEdges]
      have hfn : flatNodes (MergeOp.mergeNodes ns :: ops) =
          ns ++ flatNodes ops := by
        simp [flatNodes, opNodes]
      have h1 := storeInv_mergeNodes s pn pe root ns hinv
      have h2 := ih (s.mergeNodes ns) (pn ++ ns) pe root h1
        (by rw [hfe] at hagree; exact hagree)
      rw [hfe, hfn]
      have heq : (pn ++ ns) ++ flatNodes ops = pn ++ (ns ++ flatNodes ops) := by
        simp
      rw [heq] at h2
      exact h2
    | mergeEdges es =>
      have hfe : flatEdges (MergeOp.mergeEdges es :: ops) =
          es ++ flatEdges ops := by
        simp [flatEdges, opEdges]
      have hfn : flatNodes (MergeOp.mergeEdges es :: ops) = flatNodes ops := by
        simp [flatNodes, opNodes]
      rw [hfe, hfn]
      have h1 : storeInv (s.mergeEdges es) pn (pe ++ es) root :=
        storeInv_mergeEdges es s pn pe root hinv
          (edgesAgree_subset _ _ hagree (by
            intro x hx
            rw [hfe]
            rcases List.mem_append.mp hx with hx | hx
            · exact List.mem_append.mpr (Or.inl hx)
            · exact List.mem_append.mpr
                (Or.inr (List.mem_append.mpr (Or.inl hx)))))
      have h2 := ih (s.mergeEdges es) pn (pe ++ es) root h1
        (by
          rw [hfe] at hagree
          have heq : (pe ++ es) ++ flatEdges ops =
              pe ++ (es ++ flatEdges ops) := by simp
          rw [heq]
          exact hagree)
      have heq : (pe ++ es) ++ flatEdges ops =
          pe ++ (es ++ flatEdges ops) := by simp
      rw [heq] at h2
      exact h2

/-- Helper: boolean equality from an equivalence of truth. -/
theorem bool_eq_of_iff {a b : Bool} (h : a = true ↔ b = true) : a = b := by
  cases a <;> cases b <;> simp_all

/-- Helper: a no-op merge when the edge identity is already in the
store. -/
theorem mergeEdgeOne_of_idInStore (s : GraphStore) (e : LineageEdge)
    (h : idInStore s e = true) : s.mergeEdgeOne e = s := by
  rw [GraphStore.mergeEdgeOne]
  rw [if_pos (show (edgeIdentityIn s.edges e ||
    edgeIdentityIn s.pending e) = true from h)]

/-- Helper: merging another edge never removes an identity from the
store. -/
theorem idInStore_mergeEdgeOne_mono (s : GraphStore) (x e : LineageEdge)
    (h : idInStore s e = true) : idInStore (s.mergeEdgeOne x) e = true := by
  rw [GraphStore.mergeEdgeOne]
  by_cases h1 : (edgeIdentityIn s.edges x || edgeIdentityIn s.pending x) = true
  · rw [if_pos h1]
    exact h
  · rw [if_neg h1]
    by_cases h2 : endpointsPresent s.nodes x = true
    · rw [if_pos h2]
      rcases Bool.or_eq_true_iff.mp h with h | h <;>
        simp [idInStore, edgeIdentityIn_append, h]
    · rw [if_neg h2]
      rcases Bool.or_eq_true_iff.mp h with h | h <;>
        simp [idInStore, edgeIdentityIn_append, h]

/-- Helper: merging an edge list never removes an identity from the
store. -/
theorem idInStore_mergeEdges_mono (es : List LineageEdge) :
    ∀ (s : GraphStore) (e : LineageEdge), idInStore s e = true →
      idInStore (s.mergeEdges es) e = true := by
  induction es with
  | nil => intro s e h; exact h
  | cons x es ih =>
    intro s e h
    exact ih (s.mergeEdgeOne x) e (idInStore_mergeEdgeOne_mono s x e h)

/-- Helper: after merging an edge its identity is in the store. -/
theorem idInStore_self_mergeEdgeOne (s : GraphStore) (e : LineageEdge) :
    idInStore (s.mergeEdgeOne e) e = true := by
  by_cases h1 : (edgeIdentityIn s.edges e || edgeIdentityIn s.pending e) = true
  · rw [GraphStore.mergeEdgeOne, if_pos h1]
    exact h1
  · rw [GraphStore.mergeEdgeOne, if_neg h1]
    by_cases h2 : endpointsPresent s.nodes e = true
    · rw [if_pos h2]
      simp [idInStore, edgeIdentityIn_append, edgeIdentityIn]
    · rw [if_neg h2]
      simp [idInStore, edgeIdentityIn_append, edgeIdentityIn]

/-- Helper: after a `mergeEdges` call every delivered identity is in
the store. -/
theorem idInStore_mergeEdges_all (es : List LineageEdge) :
    ∀ (s : GraphStore), ∀ e ∈ es, idInStore (s.mergeEdges es) e = true := by
  induction es with
  | nil =>
    intro s e h
    simp at h
  | cons x es ih =>
    intro s e he
    rcases List.mem_cons.mp he with he | he
    · subst he
      exact idInStore_mergeEdges_mono es (s.mergeEdgeOne e) e
        (idInStore_self_mergeEdgeOne s e)
    · exact ih (s.mergeEdgeOne x) e he

/-- Helper: a `mergeEdges` call whose identities are all already in the
store is a no-op. -/
theorem mergeEdges_skip_all (es : List LineageEdge) :
    ∀ (s : GraphStore), (∀ e ∈ es, idInStore s e = true) →
      s.mergeEdges es = s := by
  induction es with
  | nil => intro s _; rfl
  | cons x es ih =>
    intro s h
    have hx : s.mergeEdgeOne x = s :=
      mergeEdgeOne_of_idInStore s x (h x (by simp))
    show (s.mergeEdgeOne x).mergeEdges es = s
    rw [hx]
    exact ih s (fun e he => h e (by simp [he]))

/-- Helper: merging the same edge list twice is literally a no-op the
second time. -/
theorem mergeEdges_idem (s : GraphStore) (es : List LineageEdge) :
    (s.mergeEdges es).mergeEdges es = s.mergeEdges es :=
  mergeEdges_skip_all es _ (idInStore_mergeEdges_all es s)

/-- Helper: entity presence is unchanged by re-merging the same node
list. -/
theorem hasEntity_foldl_twice (s0 : List LineageNode)
    (ns : List LineageNode) (f : String) :
    hasEntity (ns.foldl insertNode (ns.foldl insertNode s0)) f =
      hasEntity (ns.foldl insertNode s0) f := by
  apply bool_eq_of_iff
  rw [hasEntity_foldl_insertNode, hasEntity_foldl_insertNode]
  constructor
  · rintro (h | h)
    · exact h
    · exact Or.inr h
  · intro h
    exact Or.inl h

/-- Helper: merging the same node list twice yields the same store
content as merging it once. -/
theorem mergeNodes_idem_content (s : GraphStore) (ns : List LineageNode) :
    GraphStore.sameContent ((s.mergeNodes ns).mergeNodes ns)
      (s.mergeNodes ns) := by
  have hpres : ∀ x : LineageEdge,
      endpointsPresent (ns.foldl insertNode ((s.mergeNodes ns).nodes)) x =
        endpointsPresent ((s.mergeNodes ns).nodes) x := by
    intro x
    rw [endpointsPresent, endpointsPresent]
    rw [show (s.mergeNodes ns).nodes = ns.foldl insertNode s.nodes from rfl]
    rw [hasEntity_foldl_twice, hasEntity_foldl_twice]
  have hready : ((s.mergeNodes ns).pending).filter
      (fun e => endpointsPresent
        (ns.foldl insertNode ((s.mergeNodes ns).nodes)) e) = [] := by
    rw [show (s.mergeNodes ns).pending = s.pending.filter
      (fun e => !endpointsPresent (ns.foldl insertNode s.nodes) e)
      from rfl]
    rw [List.filter_filter]
    apply List.filter_eq_nil_iff.mpr
    intro a _
    rw [Bool.and_eq_true]
    rintro ⟨h1, h2⟩
    rw [hpres] at h1
    rw [show (s.mergeNodes ns).nodes = ns.foldl insertNode s.nodes
      from rfl] at h1
    rw [h1] at h2
    simp at h2
  constructor
  · intro k
    rw [show ((s.mergeNodes ns).mergeNodes ns).nodes =
      ns.foldl insertNode ((s.mergeNodes ns).nodes) from rfl]
    rw [show (s.mergeNodes ns).nodes = ns.foldl insertNode s.nodes from rfl]
    rw [nodeLookup_foldl_insertNode, nodeLookup_foldl_insertNode]
    exact applyNodes_idem _ ns k
  · intro e
    rw [show ((s.mergeNodes ns).mergeNodes ns).edges =
      (((s.mergeNodes ns).pending).filter
        (fun e => endpointsPresent
          (ns.foldl insertNode ((s.mergeNodes ns).nodes)) e)).foldl
        insertEdge ((s.mergeNodes ns).edges) from rfl]
    rw [hready]
    rfl

/-- C7 counterexample: two `mergeNodes` call sequences delivering the
same node multiset (a swap of two nodes sharing an identity but
differing in display name) and the same (empty) edge multiset yield
different store content, because display merging is last-write-wins. -/
theorem c7_counterexample :
    (flatNodes [.mergeNodes [sampleNode "a" "x"],
        .mergeNodes [sampleNode "a" "y"]]).Perm
      (flatNodes [.mergeNodes [sampleNode "a" "y"],
        .mergeNodes [sampleNode "a" "x"]]) ∧
    (flatEdges [MergeOp.mergeNodes [sampleNode "a" "x"],
        MergeOp.mergeNodes [sampleNode "a" "y"]]).Perm
      (flatEdges [MergeOp.mergeNodes [sampleNode "a" "y"],
        MergeOp.mergeNodes [sampleNode "a" "x"]]) ∧
    ¬ GraphStore.sameContent
        (runOps (GraphStore.reset (sampleNode "r" "r"))
          [.mergeNodes [sampleNode "a" "x"],
           .mergeNodes [sampleNode "a" "y"]])
        (runOps (GraphStore.reset (sampleNode "r" "r"))
          [.mergeNodes [sampleNode "a" "y"],
           .mergeNodes [sampleNode "a" "x"]]) := by
  refine ⟨by decide, by decide, ?_⟩
  intro h
  exact absurd (h.1 ("a", "table")) (by decide)

/-- C7 (amended): GraphStore merging is idempotent — merging the same
node or edge set twice yields the same store content as merging it
once — and two `mergeNodes`/`mergeEdges` call sequences delivering the
same total multiset of inputs from a reset store yield identical
content, provided any two delivered records with the same identity are
identical (without that proviso, last-write-wins display merging makes
the node content order-dependent). -/
theorem c7_merge_idempotent_and_order :
    (∀ (s : GraphStore) (ns : List LineageNode),
      GraphStore.sameContent ((s.mergeNodes ns).mergeNodes ns)
        (s.mergeNodes ns)) ∧
    (∀ (s : GraphStore) (es : List LineageEdge),
      (s.mergeEdges es).mergeEdges es = s.mergeEdges es) ∧
    (∀ (root : LineageNode) (ops1 ops2 : List MergeOp),
      (flatNodes ops1).Perm (flatNodes ops2) →
      (flatEdges ops1).Perm (flatEdges ops2) →
      nodesAgree (flatNodes ops1) →
      edgesAgree (flatEdges ops1) →
      GraphStore.sameContent (runOps (GraphStore.reset root) ops1)
        (runOps (GraphStore.reset root) ops2)) := by
  refine ⟨mergeNodes_idem_content, mergeEdges_idem, ?_⟩
  intro root ops1 ops2 hpn hpe hna hea
  have hea2 : edgesAgree (flatEdges ops2) :=
    fun x hx y hy hk =>
      hea x (hpe.mem_iff.mpr hx) y (hpe.mem_iff.mpr hy) hk
  have inv1 := storeInv_runOps ops1 (GraphStore.reset root) [] [] root
    (storeInv_reset root) (by simpa using hea)
  have inv2 := storeInv_runOps ops2 (GraphStore.reset root) [] [] root
    (storeInv_reset root) (by simpa using hea2)
  simp only [List.nil_append] at inv1 inv2
  obtain ⟨hA1, hB1, hC1, hD1, hE1⟩ := inv1
  obtain ⟨hA2, hB2, hC2, hD2, hE2⟩ := inv2
  constructor
  · intro k
    rw [hA1 k, hA2 k]
    exact applyNodes_perm _ _ hpn hna _ k
  · intro x
    rw [hC1 x, hC2 x]
    have hhe : ∀ f,
        hasEntity (runOps (GraphStore.reset root) ops1).nodes f =
          hasEntity (runOps (GraphStore.reset root) ops2).nodes f := by
      intro f
      apply bool_eq_of_iff
      rw [hB1 f, hB2 f]
      constructor
      · rintro (h | ⟨n, hn, hf⟩)
        · exact Or.inl h
        · exact Or.inr ⟨n, hpn.mem_iff.mp hn, hf⟩
      · rintro (h | ⟨n, hn, hf⟩)
        · exact Or.inl h
        · exact Or.inr ⟨n, hpn.mem_iff.mpr hn, hf⟩
    have hpp :
        endpointsPresent (runOps (GraphStore.reset root) ops1).nodes x =
          endpointsPresent (runOps (GraphStore.reset root) ops2).nodes x := by
      rw [endpointsPresent, endpointsPresent, hhe, hhe]
    rw [hpp]
    constructor
    · rintro ⟨h1, h2⟩
      exact ⟨hpe.mem_iff.mp h1, h2⟩
    · rintro ⟨h1, h2⟩
      exact ⟨hpe.mem_iff.mpr h1, h2⟩

/-- Witness for C7 (amended) at a concrete reordered pair of call
sequences with identity-disjoint inputs. -/
theorem c7_witness :
    GraphStore.sameContent
      (runOps (GraphStore.reset (sampleNode "r" "r"))
        [.mergeNodes [sampleNode "a" "a", sampleNode "b" "b"],
         .mergeEdges [sampleEdge "a" "b"]])
      (runOps (GraphStore.reset (sampleNode "r" "r"))
        [.mergeEdges [sampleEdge "a" "b"],
         .mergeNodes [sampleNode "b" "b", sampleNode "a" "a"]]) :=
  c7_merge_idempotent_and_order.2.2 (sampleNode "r" "r")
    [.mergeNodes [sampleNode "a" "a", sampleNode "b" "b"],
     .mergeEdges [sampleEdge "a" "b"]]
    [.mergeEdges [sampleEdge "a" "b"],
     .mergeNodes [sampleNode "b" "b", sampleNode "a" "a"]]
    (by decide) (by decide) (by unfold nodesAgree; decide)
    (by unfold edgesAgree; decide)

/-- C2: with the DataObservability layer active and the
alert-capability flag true, `loadRoot` issues both the neighborhood
fetch and the observability fetch, each with the matching config
`{downstreamDepth:1, nodesPerLayer:50, upstreamDepth:1}`, and the
resulting store's edge set merges the edges of both responses: an edge
is materialized exactly when it was delivered by either response and
both its endpoints are present. -/
theorem c2_loadRoot_with_observability :
    loadRootCalls "table1" "table" ⟨1, 1, 50⟩ [.dataObservability] true "" =
      [.getLineageDataByFQN "table1" "table" ⟨1, 1, 50⟩ "",
       .getDataQualityLineage "table1" ⟨1, 1, 50⟩ ""] ∧
    (∀ (root : LineageNode) (respNodes : List LineageNode)
        (respEdges obsEdges : List LineageEdge),
      edgesAgree (respEdges ++ obsEdges) →
      ∀ x : LineageEdge,
        x ∈ (loadRootApply root respNodes respEdges obsEdges).edges ↔
          (x ∈ respEdges ∨ x ∈ obsEdges) ∧
          endpointsPresent
            (loadRootApply root respNodes respEdges obsEdges).nodes x =
            true) := by
  constructor
  · rfl
  · intro root ns es1 es2 hagree x
    have hfe : flatEdges [MergeOp.mergeNodes ns, MergeOp.mergeEdges es1,
        MergeOp.mergeEdges es2] = es1 ++ es2 := by
      simp [flatEdges, opEdges]
    have inv := storeInv_runOps
      [MergeOp.mergeNodes ns, MergeOp.mergeEdges es1, MergeOp.mergeEdges es2]
      (GraphStore.reset root) [] [] root (storeInv_reset root)
      (by simpa [hfe] using hagree)
    rw [hfe] at inv
    simp only [List.nil_append] at inv
    obtain ⟨hA, hB, hC, hD, hE⟩ := inv
    unfold loadRootApply
    rw [hC x]
    constructor
    · rintro ⟨h1, h2⟩
      exact ⟨List.mem_append.mp h1, h2⟩
    · rintro ⟨h1, h2⟩
      exact ⟨List.mem_append.mpr h1, h2⟩

/-- Witness for C2 at a concrete root, neighborhood response and
observability response. -/
theorem c2_witness :
    sampleEdge "r" "a" ∈
      (loadRootApply (sampleNode "r" "r")
        [sampleNode "a" "a", sampleNode "b" "b"]
        [sampleEdge "r" "a"] [sampleObsEdge "a" "b"]).edges ↔
      ((sampleEdge "r" "a" ∈ [sampleEdge "r" "a"] ∨
        sampleEdge "r" "a" ∈ [sampleObsEdge "a" "b"]) ∧
       endpointsPresent
         (loadRootApply (sampleNode "r" "r")
           [sampleNode "a" "a", sampleNode "b" "b"]
           [sampleEdge "r" "a"] [sampleObsEdge "a" "b"]).nodes
         (sampleEdge "r" "a") = true) :=
  c2_loadRoot_with_observability.2 (sampleNode "r" "r")
    [sampleNode "a" "a", sampleNode "b" "b"]
    [sampleEdge "r" "a"] [sampleObsEdge "a" "b"]
    (by unfold edgesAgree; decide) (sampleEdge "r" "a")
